import Mathlib

/-!
Shallow embedding of `daily_digest.py` (ML×Chem daily digest pipeline).

Python strings are modelled as `List Char` (`Str`); `str.lower` is modelled by
`Char.toLower` on each character; the regex class `\s` is modelled by the ASCII
whitespace characters.  Python exceptions are modelled by `Except Unit`.
`datetime` values are modelled by `DT`: a wall-clock value in seconds together
with an optional timezone offset in minutes (`none` = naive datetime).
-/

abbrev Str := List Char

deriving instance DecidableEq for Except

/-- The ASCII whitespace characters matched by Python's `\s` and `str.strip`. -/
def isSpace (c : Char) : Bool :=
  c = ' ' || c = '\t' || c = '\n' || c = '\r' || c = '\x0b' || c = '\x0c'

/-- `str.lower()` (restricted to the ASCII case mapping). -/
def lowerStr (s : Str) : Str := s.map Char.toLower

/-- Python `k in t` for strings: contiguous-substring containment. -/
def pyIn (k t : Str) : Bool := decide (k <:+: t)

/-- One pass of `re.sub(r"\s+", " ", s)`: every maximal whitespace run becomes
a single space character. -/
def collapseWS : List Char → List Char
  | [] => []
  | c :: cs =>
    match cs with
    | [] => if isSpace c then [' '] else [c]
    | c2 :: cs2 =>
      if isSpace c then
        (if isSpace c2 then collapseWS (c2 :: cs2) else ' ' :: collapseWS (c2 :: cs2))
      else c :: collapseWS (c2 :: cs2)

/-- Removal of a trailing run of characters satisfying `p` (the right half of
`str.strip()`). -/
def dropRightWhile (p : Char → Bool) : List Char → List Char
  | [] => []
  | c :: cs =>
    match dropRightWhile p cs with
    | [] => if p c then [] else [c]
    | r => c :: r

/-- `normalize_text(s)`: `re.sub(r"\s+", " ", s or "").strip()`.  The argument
is `Option Str` because the Python parameter may be `None` (handled by
`s or ""`). -/
def normalize_text (s : Option Str) : Str :=
  dropRightWhile isSpace ((collapseWS (s.getD [])).dropWhile isSpace)

/-- `ML_KEYWORDS = [k.lower() for k in CFG.get(...)]` (same for the chemistry
vocabulary): configured keyword lists are lower-cased once at load time. -/
def loadKeywords (cfg : List Str) : List Str := cfg.map lowerStr

/-- `has_keywords(text)`, parametrised by the two module-level keyword lists
(`ML_KEYWORDS`, `CHEM_KEYWORDS`).  `text` may be `None` (handled by
`(text or "").lower()`). -/
def has_keywords (mlK chemK : List Str) (text : Option Str) : Bool :=
  let t := lowerStr (text.getD [])
  (mlK.any (fun k => pyIn k t)) && (chemK.any (fun k => pyIn k t))

/-- A Python `datetime`: wall-clock value in seconds plus an optional timezone
offset in minutes.  `tz = none` models a naive datetime. -/
structure DT where
  wall : Int
  tz : Option Int
deriving DecidableEq

/-- `JST = timezone(timedelta(hours=9))`, as an offset in minutes. -/
def JSTmin : Int := 540

/-- The UTC instant (seconds) denoted by an aware datetime; `none` for a naive
one. -/
def DT.instant? (d : DT) : Option Int := d.tz.map (fun o => d.wall - o * 60)

/-- `if dt.tzinfo is None: dt = dt.replace(tzinfo=timezone.utc)`. -/
def fixNaiveUTC (d : DT) : DT :=
  match d.tz with
  | none => { d with tz := some 0 }
  | some _ => d

/-- `dt.astimezone(JST)`: convert to the fixed display timezone.  A naive input
is interpreted by Python as local time; we model the runner's local zone as
UTC. -/
def astimezoneJST (d : DT) : DT :=
  match d.tz with
  | some o => { wall := d.wall - o * 60 + JSTmin * 60, tz := some JSTmin }
  | none => { wall := d.wall + JSTmin * 60, tz := some JSTmin }

/-- `within_lookback(dt)`: `(now_utc - dt) <= timedelta(hours=LOOKBACK_HOURS)`.
Parametrised by the global `LOOKBACK_HOURS` and by the aware reference instant
`datetime.now(timezone.utc)` (in seconds).  Subtracting a naive datetime from
an aware one raises `TypeError` in Python, modelled by `.error`. -/
def within_lookback (H nowUTC : Int) (dt : DT) : Except Unit Bool :=
  match dt.instant? with
  | none => .error ()
  | some i => .ok (decide (nowUTC - i ≤ H * 3600))

/-- The provider tag stored in a record's `source` field. -/
inductive Source where
  | arxiv
  | crossref
  | biorxiv
  | semanticscholar
deriving DecidableEq

/-- The uniform record dict built by every adapter.  `published_at` holds the
datetime whose `isoformat()` the Python code stores. -/
structure Rec where
  source : Source
  title : Str
  abstract : Str
  url : Option Str
  doi : Option Str
  published_at : DT
deriving DecidableEq

/-- `.lower()` on a value that may be `None`: `None.lower()` raises
`AttributeError`. -/
def pyLowerOpt : Option Str → Except Unit Str
  | none => .error ()
  | some s => .ok (lowerStr s)

/-- The dedup key expression
`(it.get('doi') or '').lower() or it.get('url','').lower() or it.get('title','').lower()`
with Python's short-circuiting `or` over falsy (empty) strings. -/
def dkey (it : Rec) : Except Unit Str :=
  let d := lowerStr (it.doi.getD [])
  if d ≠ [] then .ok d
  else
    match pyLowerOpt it.url with
    | .error e => .error e
    | .ok u =>
      if u ≠ [] then .ok u
      else .ok (lowerStr it.title)

/-- The loop of `dedup`, with the `seen` set threaded through. -/
def dedupGo : List Str → List Rec → Except Unit (List Rec)
  | _, [] => .ok []
  | seen, it :: rest =>
    match dkey it with
    | .error e => .error e
    | .ok k =>
      if k ≠ [] ∧ k ∉ seen then
        match dedupGo (k :: seen) rest with
        | .error e => .error e
        | .ok out => .ok (it :: out)
      else dedupGo seen rest

/-- `dedup(items)`. -/
def dedup (items : List Rec) : Except Unit (List Rec) :=
  dedupGo [] items

/-- Python truthiness of an optional string: `None` and `""` are falsy. -/
def pyStrOpt : Option Str → Option Str
  | some s => if s = [] then none else some s
  | none => none

/-- A feedparser entry as consumed by the arXiv and bioRxiv adapters. -/
structure FeedEntry where
  title : Option Str
  summary : Option Str
  link : Option Str
  published : Option Str
  updated : Option Str
deriving DecidableEq

/-- arXiv date chain (`fetch_arxiv` lines 73-77): parse `published` if truthy,
else parse `updated` if truthy, else `datetime.now(timezone.utc)`; then the
naive-timezone fix.  `dtparser.parse` may raise on a malformed string. -/
def arxivDate (published updated : Option Str) (dtparse : Str → Except Unit DT)
    (nowDT : DT) : Except Unit DT :=
  match pyStrOpt published with
  | some s =>
    match dtparse s with
    | .error e => .error e
    | .ok d => .ok (fixNaiveUTC d)
  | none =>
    match pyStrOpt updated with
    | some s =>
      match dtparse s with
      | .error e => .error e
      | .ok d => .ok (fixNaiveUTC d)
    | none => .ok (fixNaiveUTC nowDT)

/-- The body of one iteration of an adapter loop: `.ok none` models `continue`,
`.ok (some r)` models `items.append(r)`, `.error` models an uncaught exception
escaping the loop. -/
def arxivItem (mlK chemK : List Str) (H nowUTC : Int) (nowDT : DT)
    (dtparse : Str → Except Unit DT) (e : FeedEntry) : Except Unit (Option Rec) :=
  let title := normalize_text e.title
  let summary := normalize_text e.summary
  match arxivDate e.published e.updated dtparse nowDT with
  | .error er => .error er
  | .ok dt =>
    match within_lookback H nowUTC dt with
    | .error er => .error er
    | .ok inWin =>
      if !inWin then .ok none
      else if !has_keywords mlK chemK (some (title ++ ' ' :: summary)) then .ok none
      else .ok (some { source := Source.arxiv, title := title, abstract := summary,
                       url := e.link, doi := none, published_at := astimezoneJST dt })

/-- A `for` loop that appends selected items, aborted by the first uncaught
exception. -/
def procList {α : Type} (f : α → Except Unit (Option Rec)) : List α → Except Unit (List Rec)
  | [] => .ok []
  | e :: es =>
    match f e with
    | .error er => .error er
    | .ok none => procList f es
    | .ok (some r) =>
      match procList f es with
      | .error er => .error er
      | .ok rest => .ok (r :: rest)

/-- `fetch_arxiv()`, parametrised by the parsed feed entries (feedparser traps
transport errors internally), the date parser, the clock and the keyword
configuration.  Note: the per-entry loop is not wrapped in any `try`. -/
def fetch_arxiv (mlK chemK : List Str) (H nowUTC : Int) (nowDT : DT)
    (dtparse : Str → Except Unit DT) (entries : List FeedEntry) : Except Unit (List Rec) :=
  procList (arxivItem mlK chemK H nowUTC nowDT dtparse) entries

/-- One item of a Crossref `works` response.  `publishedPrint`/`publishedOnline`
are `some dp` when the field is in the item dict, with `dp` the optional
`date-parts` value; `created` is `rec.get('created', {}).get('date-time')`. -/
structure CrItem where
  title : List Str
  abstract : Option Str
  URL : Option Str
  DOI : Option Str
  publishedPrint : Option (Option (List (List (Option Int))))
  publishedOnline : Option (Option (List (List (Option Int))))
  created : Option Str
deriving DecidableEq

/-- `rec[field].get('date-parts', [[None, None, None]])[0]`; indexing an empty
list raises `IndexError`. -/
def dpFirst (dp : Option (List (List (Option Int)))) : Except Unit (List (Option Int)) :=
  match dp.getD [[none, none, none]] with
  | [] => .error ()
  | x :: _ => .ok x

/-- `m or 1` on an optional integer: `None` and `0` give `1`. -/
def pyOr1 : Option Int → Int
  | some v => if v = 0 then 1 else v
  | none => 1

/-- `datetime(y, m, d, tzinfo=timezone.utc)`, with the calendar date encoded
abstractly (injectively) on the instant line. -/
def dateToDT (y m d : Int) : DT :=
  { wall := (y * 10000 + m * 100 + d) * 86400, tz := some 0 }

/-- `y, m, d = (parts + [1, 1, 1])[:3]` followed by
`if y: dt = datetime(y, m or 1, d or 1, tzinfo=timezone.utc)` (where `y = 0`
is falsy). -/
def mkCrDate (parts : List (Option Int)) : Option DT :=
  let l := parts ++ [some 1, some 1, some 1]
  match l.getD 0 none with
  | none => none
  | some y => if y = 0 then none else some (dateToDT y (pyOr1 (l.getD 1 none)) (pyOr1 (l.getD 2 none)))

/-- Crossref date chain (`fetch_crossref` lines 118-134): `published-print`,
else `published-online`, else `created` via `dtparser.parse` (note: with no
naive-timezone fix), else `datetime.now(timezone.utc)`. -/
def crossrefDate (it : CrItem) (dtparse : Str → Except Unit DT) (nowDT : DT) :
    Except Unit DT :=
  let step1 : Except Unit (Option DT) :=
    match it.publishedPrint with
    | some dp =>
      match dpFirst dp with
      | .error e => .error e
      | .ok parts => .ok (mkCrDate parts)
    | none => .ok none
  match step1 with
  | .error e => .error e
  | .ok d1 =>
    let step2 : Except Unit (Option DT) :=
      match d1 with
      | some _ => .ok d1
      | none =>
        match it.publishedOnline with
        | some dp =>
          match dpFirst dp with
          | .error e => .error e
          | .ok parts => .ok (mkCrDate parts)
        | none => .ok none
    match step2 with
    | .error e => .error e
    | .ok (some dt) => .ok dt
    | .ok none =>
      match pyStrOpt it.created with
      | some s => dtparse s
      | none => .ok nowDT

/-- One iteration of the Crossref item loop. -/
def crossrefItem (mlK chemK : List Str) (H nowUTC : Int) (nowDT : DT)
    (dtparse : Str → Except Unit DT) (it : CrItem) : Except Unit (Option Rec) :=
  let title := normalize_text (some (List.intercalate [' '] it.title))
  let ab := normalize_text it.abstract
  match crossrefDate it dtparse nowDT with
  | .error er => .error er
  | .ok dt =>
    match within_lookback H nowUTC dt with
    | .error er => .error er
    | .ok inWin =>
      if !inWin then .ok none
      else if !has_keywords mlK chemK (some (title ++ ' ' :: ab)) then .ok none
      else .ok (some { source := Source.crossref, title := title, abstract := ab,
                       url := it.URL, doi := it.DOI, published_at := astimezoneJST dt })

/-- `fetch_crossref()`: the `try` wraps only `requests.get` + `raise_for_status`
(modelled by `httpOk`) and returns `[]` on failure; `r.json()` (modelled by
`json`) runs outside the `try`, so its failure propagates. -/
def fetch_crossref (httpOk : Except Unit Unit) (json : Except Unit (List CrItem))
    (mlK chemK : List Str) (H nowUTC : Int) (nowDT : DT)
    (dtparse : Str → Except Unit DT) : Except Unit (List Rec) :=
  match httpOk with
  | .error _ => .ok []
  | .ok _ =>
    match json with
    | .error e => .error e
    | .ok items => procList (crossrefItem mlK chemK H nowUTC nowDT dtparse) items

/-- bioRxiv date chain (`fetch_biorxiv` lines 164-166): parse `published` if
truthy, else `datetime.now(timezone.utc)`; then the naive-timezone fix. -/
def biorxivDate (published : Option Str) (dtparse : Str → Except Unit DT)
    (nowDT : DT) : Except Unit DT :=
  match pyStrOpt published with
  | some s =>
    match dtparse s with
    | .error e => .error e
    | .ok d => .ok (fixNaiveUTC d)
  | none => .ok (fixNaiveUTC nowDT)

/-- One iteration of the bioRxiv entry loop. -/
def biorxivItem (mlK chemK : List Str) (H nowUTC : Int) (nowDT : DT)
    (dtparse : Str → Except Unit DT) (e : FeedEntry) : Except Unit (Option Rec) :=
  let title := normalize_text e.title
  let summary := normalize_text e.summary
  match biorxivDate e.published dtparse nowDT with
  | .error er => .error er
  | .ok dt =>
    match within_lookback H nowUTC dt with
    | .error er => .error er
    | .ok inWin =>
      if !inWin then .ok none
      else if !has_keywords mlK chemK (some (title ++ ' ' :: summary)) then .ok none
      else .ok (some { source := Source.biorxiv, title := title, abstract := summary,
                       url := e.link, doi := none, published_at := astimezoneJST dt })

/-- `fetch_biorxiv()`: the `try` wraps `feedparser.parse`; the loop runs over
`feed.entries[:MAX_RESULTS]`. -/
def fetch_biorxiv (feed : Except Unit (List FeedEntry)) (maxResults : Nat)
    (mlK chemK : List Str) (H nowUTC : Int) (nowDT : DT)
    (dtparse : Str → Except Unit DT) : Except Unit (List Rec) :=
  match feed with
  | .error _ => .ok []
  | .ok entries =>
    procList (biorxivItem mlK chemK H nowUTC nowDT dtparse) (entries.take maxResults)

/-- One item of a Semantic Scholar search response. -/
structure S2Item where
  title : Option Str
  abstract : Option Str
  url : Option Str
  doi : Option Str
  publicationDate : Option Str
deriving DecidableEq

/-- Semantic Scholar date chain (`fetch_semanticscholar` lines 210-218): the
per-item `try`/`except` makes a malformed `publicationDate` fall back to
`datetime.now(timezone.utc)`; the naive-timezone fix is inside the `try`. -/
def s2Date (pubDate : Option Str) (dtparse : Str → Except Unit DT) (nowDT : DT) : DT :=
  match pyStrOpt pubDate with
  | some s =>
    match dtparse s with
    | .ok d => fixNaiveUTC d
    | .error _ => nowDT
  | none => nowDT

/-- One iteration of the Semantic Scholar item loop (never raises on dates). -/
def s2Item (mlK chemK : List Str) (H nowUTC : Int) (nowDT : DT)
    (dtparse : Str → Except Unit DT) (p : S2Item) : Except Unit (Option Rec) :=
  let title := normalize_text p.title
  let ab := normalize_text p.abstract
  let dt := s2Date p.publicationDate dtparse nowDT
  match within_lookback H nowUTC dt with
  | .error er => .error er
  | .ok inWin =>
    if !inWin then .ok none
    else if !has_keywords mlK chemK (some (title ++ ' ' :: ab)) then .ok none
    else .ok (some { source := Source.semanticscholar, title := title, abstract := ab,
                     url := p.url, doi := p.doi, published_at := astimezoneJST dt })

/-- `fetch_semanticscholar()`: skipped entirely without an API key; the `try`
wraps only the HTTP call; `r.json()` runs outside it. -/
def fetch_semanticscholar (apiKey : Option Str) (httpOk : Except Unit Unit)
    (json : Except Unit (List S2Item)) (mlK chemK : List Str) (H nowUTC : Int)
    (nowDT : DT) (dtparse : Str → Except Unit DT) : Except Unit (List Rec) :=
  match apiKey with
  | none => .ok []
  | some _ =>
    match httpOk with
    | .error _ => .ok []
    | .ok _ =>
      match json with
      | .error e => .error e
      | .ok items => procList (s2Item mlK chemK H nowUTC nowDT dtparse) items

/-- `summarize_ja(title, abstract)`: `svc` models the OpenAI chat call together
with the extraction of `resp.choices[0].message.content`; any exception inside
the `try` yields the fallback `(abstract or '')[:200]`. -/
def summarize_ja (svc : Str → Str → Except Unit Str) (title abstract : Str) : Str :=
  match svc title abstract with
  | .ok content => normalize_text (some content)
  | .error _ => abstract.take 200

/-- A record after `it['summary_ja'] = summarize_ja(...)`. -/
structure RecS where
  item : Rec
  summary_ja : Str
deriving DecidableEq

/-- The observable outcome of `main()` after fetching: early return on no
items, silent skip below the minimum, or handoff to
`build_email_html`/`send_email`. -/
inductive RunOutcome where
  | noItems
  | belowMin (items : List RecS)
  | sent (items : List RecS)
deriving DecidableEq

/-- `main()` from the merge point on (`daily_digest.py` lines 306-321),
parametrised by the merged fetch results, the summarization service and the
configured `MIN_ITEMS_TO_EMAIL`. -/
def mainAfterFetch (fetched : List Rec) (svc : Str → Str → Except Unit Str)
    (minItems : Int) : Except Unit RunOutcome :=
  if fetched = [] then .ok RunOutcome.noItems
  else
    match dedup fetched with
    | .error e => .error e
    | .ok items =>
      let withS := items.map (fun it => RecS.mk it (summarize_ja svc it.title it.abstract))
      if (withS.length : Int) < minItems then .ok (RunOutcome.belowMin withS)
      else .ok (RunOutcome.sent withS)

/-- Two adjacent characters do not form a whitespace run: whenever the left one
is whitespace, the right one is not. -/
def noWS2 (a b : Char) : Prop := isSpace a = true → isSpace b = false

/-- A record whose DOI is absent and whose URL and title are empty strings:
its derived dedup key is the empty string. -/
def rEmpty : Rec :=
  { source := Source.arxiv, title := [], abstract := [], url := some [],
    doi := none, published_at := { wall := 0, tz := some 0 } }

/-- A record carrying the given DOI (nonempty URL and title). -/
def rDoi (d : Str) : Rec :=
  { source := Source.arxiv, title := ['t'], abstract := ['a', 'b', 'c'], url := some ['u'],
    doi := some d, published_at := { wall := 0, tz := some 0 } }

/-- A feed entry whose `published` field is present but unparseable. -/
def badEntry : FeedEntry :=
  { title := none, summary := none, link := none, published := some ['x'], updated := none }

/-- A feed entry with no date fields and a keyword-matching title. -/
def okEntry : FeedEntry :=
  { title := some ['m', 'l', ' ', 'c', 'h'], summary := none, link := none,
    published := none, updated := none }

/-- A date parser that fails on every input (models `dtparser.parse` raising
`ValueError` on a malformed date string). -/
def failParse : Str → Except Unit DT := fun _ => .error ()

/-- A summarization service call that always fails. -/
def failSvc : Str → Str → Except Unit Str := fun _ _ => .error ()

/-- An aware reference datetime at UTC instant 0. -/
def nowDT0 : DT := { wall := 0, tz := some 0 }

/-- The record `fetch_arxiv` emits for `okEntry` at `nowDT0`. -/
def arxivOutRec : Rec :=
  { source := Source.arxiv, title := ['m', 'l', ' ', 'c', 'h'], abstract := [], url := none,
    doi := none, published_at := { wall := 32400, tz := some 540 } }

/-- A sample unnormalized text. -/
def sEx : Str := [' ', 'a', ' ', ' ', 'b', '\t']

theorem collapseWS_space_mem : ∀ (l : List Char) (c : Char),
    c ∈ collapseWS l → isSpace c = true → c = ' ' := by
  intro l
  induction l with
  | nil => intro c hc; simp [collapseWS] at hc
  | cons a cs ih =>
    intro c hc hs
    cases cs with
    | nil =>
      by_cases ha : isSpace a = true
      · simp [collapseWS, ha] at hc; simp [hc]
      · simp [collapseWS, ha] at hc; rw [hc] at hs; simp [hs] at ha
    | cons b cs2 =>
      by_cases ha : isSpace a = true
      · by_cases hb : isSpace b = true
        · simp only [collapseWS, ha, hb, if_true] at hc
          exact ih c hc hs
        · simp only [collapseWS, ha, hb, if_true, if_false] at hc
          rcases List.mem_cons.mp hc with h1 | h2
          · exact h1
          · exact ih c h2 hs
      · simp only [collapseWS, ha, if_false] at hc
        rcases List.mem_cons.mp hc with h1 | h2
        · rw [h1] at hs; simp [hs] at ha
        · exact ih c h2 hs

theorem collapseWS_head_keep : ∀ (c : Char) (cs : List Char), isSpace c = false →
    (collapseWS (c :: cs)).head? = some c := by
  intro c cs h
  cases cs with
  | nil => simp [collapseWS, h]
  | cons b cs2 => simp [collapseWS, h]

theorem collapseWS_chain : ∀ (l : List Char), List.Chain' noWS2 (collapseWS l) := by
  intro l
  induction l with
  | nil => simp [collapseWS]
  | cons a cs ih =>
    cases cs with
    | nil =>
      by_cases ha : isSpace a = true <;> simp [collapseWS, ha]
    | cons b cs2 =>
      by_cases ha : isSpace a = true
      · by_cases hb : isSpace b = true
        · simpa only [collapseWS, ha, hb, if_true] using ih
        · simp only [collapseWS, ha, hb, if_true, if_false]
          refine List.chain'_cons'.mpr ⟨?_, ih⟩
          intro y hy
          rw [collapseWS_head_keep b cs2 (by simpa using hb)] at hy
          have hyb : y = b := by simpa using hy.symm
          intro _
          rw [hyb]
          simpa using hb
      · simp only [collapseWS, ha, if_false]
        refine List.chain'_cons'.mpr ⟨?_, ih⟩
        intro y _ hsa
        exact absurd hsa ha

theorem collapseWS_fix : ∀ (l : List Char), List.Chain' noWS2 l →
    (∀ c ∈ l, isSpace c = true → c = ' ') → collapseWS l = l := by
  intro l
  induction l with
  | nil => intro _ _; rfl
  | cons a cs ih =>
    intro hch hq
    cases cs with
    | nil =>
      by_cases ha : isSpace a = true
      · have : a = ' ' := hq a (by simp) ha
        simp [collapseWS, ha, this]
      · simp [collapseWS, ha]
    | cons b cs2 =>
      have hab : noWS2 a b := (List.chain'_cons.mp hch).1
      have hch2 : List.Chain' noWS2 (b :: cs2) := (List.chain'_cons.mp hch).2
      have hq2 : ∀ c ∈ b :: cs2, isSpace c = true → c = ' ' := by
        intro c hc; exact hq c (List.mem_cons_of_mem a hc)
      by_cases ha : isSpace a = true
      · have hb : isSpace b = false := hab ha
        have haa : a = ' ' := hq a (by simp) ha
        simp only [collapseWS, ha, hb, if_true, if_false, Bool.false_eq_true]
        rw [ih hch2 hq2, haa]
      · simp [collapseWS, ha, ih hch2 hq2]

theorem dropWhileWS_sub : ∀ (l : List Char) (c : Char),
    c ∈ l.dropWhile isSpace → c ∈ l := by
  intro l
  induction l with
  | nil => intro c hc; simp [List.dropWhile] at hc
  | cons a cs ih =>
    intro c hc
    by_cases ha : isSpace a = true
    · rw [List.dropWhile_cons, if_pos ha] at hc
      exact List.mem_cons_of_mem a (ih c hc)
    · rw [List.dropWhile_cons, if_neg ha] at hc
      exact hc

theorem dropWhileWS_chain : ∀ (l : List Char), List.Chain' noWS2 l →
    List.Chain' noWS2 (l.dropWhile isSpace) := by
  intro l
  induction l with
  | nil => intro h; simpa using h
  | cons a cs ih =>
    intro h
    by_cases ha : isSpace a = true
    · rw [List.dropWhile_cons, if_pos ha]
      exact ih (List.chain'_cons'.mp h).2
    · rw [List.dropWhile_cons, if_neg ha]
      exact h

theorem dropWhileWS_head : ∀ (l : List Char) (c : Char),
    (l.dropWhile isSpace).head? = some c → isSpace c = false := by
  intro l
  induction l with
  | nil => intro c hc; simp [List.dropWhile] at hc
  | cons a cs ih =>
    intro c hc
    by_cases ha : isSpace a = true
    · rw [List.dropWhile_cons, if_pos ha] at hc
      exact ih c hc
    · rw [List.dropWhile_cons, if_neg ha] at hc
      have : a = c := by simpa using hc
      rw [← this]
      simpa using ha

theorem dropWhileWS_id : ∀ (l : List Char),
    (∀ c, l.head? = some c → isSpace c = false) → l.dropWhile isSpace = l := by
  intro l hl
  cases l with
  | nil => rfl
  | cons a cs =>
    have ha : isSpace a = false := hl a (by simp)
    rw [List.dropWhile_cons, if_neg (by simp [ha])]

theorem drw_mem : ∀ (l : List Char) (c : Char),
    c ∈ dropRightWhile isSpace l → c ∈ l := by
  intro l
  induction l with
  | nil => intro c hc; simp [dropRightWhile] at hc
  | cons a cs ih =>
    intro c hc
    rcases hr : dropRightWhile isSpace cs with _ | ⟨x, xs⟩
    · rw [dropRightWhile, hr] at hc
      by_cases ha : isSpace a = true
      · simp [ha] at hc
      · simp [ha] at hc; simp [hc]
    · rw [dropRightWhile, hr] at hc
      rcases List.mem_cons.mp hc with h1 | h2
      · simp [h1]
      · exact List.mem_cons_of_mem a (ih c (by rw [hr]; exact h2))

theorem drw_head : ∀ (l : List Char) (c : Char),
    (dropRightWhile isSpace l).head? = some c → l.head? = some c := by
  intro l c hc
  cases l with
  | nil => simp [dropRightWhile] at hc
  | cons a cs =>
    rcases hr : dropRightWhile isSpace cs with _ | ⟨x, xs⟩
    · rw [dropRightWhile, hr] at hc
      by_cases ha : isSpace a = true
      · simp [ha] at hc
      · simp [ha] at hc; simp [hc]
    · rw [dropRightWhile, hr] at hc
      simpa using hc

theorem drw_chain : ∀ (l : List Char), List.Chain' noWS2 l →
    List.Chain' noWS2 (dropRightWhile isSpace l) := by
  intro l
  induction l with
  | nil => intro h; simpa [dropRightWhile] using h
  | cons a cs ih =>
    intro h
    rcases hr : dropRightWhile isSpace cs with _ | ⟨x, xs⟩
    · rw [dropRightWhile, hr]
      by_cases ha : isSpace a = true <;> simp [ha]
    · rw [dropRightWhile, hr]
      have hcs : List.Chain' noWS2 cs := (List.chain'_cons'.mp h).2
      have hchain : List.Chain' noWS2 (x :: xs) := by rw [← hr]; exact ih hcs
      refine List.chain'_cons'.mpr ⟨?_, hchain⟩
      intro y hy
      have hyx : y = x := by simpa using hy.symm
      have hhead : cs.head? = some x := drw_head cs x (by rw [hr]; rfl)
      have := (List.chain'_cons'.mp h).1 x (by rw [hhead]; rfl)
      rw [hyx]
      exact this

theorem drw_last : ∀ (l : List Char) (c : Char),
    (dropRightWhile isSpace l).getLast? = some c → isSpace c = false := by
  intro l
  induction l with
  | nil => intro c hc; simp [dropRightWhile] at hc
  | cons a cs ih =>
    intro c hc
    rcases hr : dropRightWhile isSpace cs with _ | ⟨x, xs⟩
    · rw [dropRightWhile, hr] at hc
      by_cases ha : isSpace a = true
      · simp [ha] at hc
      · simp [ha] at hc; rw [← hc]; simpa using ha
    · rw [dropRightWhile, hr, List.getLast?_cons_cons] at hc
      exact ih c (by rw [hr]; exact hc)

theorem drw_id : ∀ (l : List Char),
    (∀ c, l.getLast? = some c → isSpace c = false) → dropRightWhile isSpace l = l := by
  intro l
  induction l with
  | nil => intro _; rfl
  | cons a cs ih =>
    intro hl
    cases cs with
    | nil =>
      have ha : isSpace a = false := hl a (by simp)
      simp [dropRightWhile, ha]
    | cons b cs2 =>
      have hl2 : ∀ c, (b :: cs2).getLast? = some c → isSpace c = false := by
        intro c hc
        exact hl c (by rw [List.getLast?_cons_cons]; exact hc)
      have hcs : dropRightWhile isSpace (b :: cs2) = b :: cs2 := ih hl2
      rw [dropRightWhile, hcs]

theorem normalize_chain (s : Option Str) : List.Chain' noWS2 (normalize_text s) :=
  drw_chain _ (dropWhileWS_chain _ (collapseWS_chain _))

theorem normalize_space_mem (s : Option Str) :
    ∀ c ∈ normalize_text s, isSpace c = true → c = ' ' := by
  intro c hc
  exact collapseWS_space_mem _ c (dropWhileWS_sub _ c (drw_mem _ c hc))

theorem normalize_head (s : Option Str) (c : Char) :
    (normalize_text s).head? = some c → isSpace c = false := by
  intro hc
  exact dropWhileWS_head _ c (drw_head _ c hc)

theorem normalize_last (s : Option Str) (c : Char) :
    (normalize_text s).getLast? = some c → isSpace c = false :=
  drw_last _ c

theorem normalizeText_idem (s : Option Str) :
    normalize_text (some (normalize_text s)) = normalize_text s := by
  have h1 : collapseWS (normalize_text s) = normalize_text s :=
    collapseWS_fix _ (normalize_chain s) (normalize_space_mem s)
  have h2 : (normalize_text s).dropWhile isSpace = normalize_text s :=
    dropWhileWS_id _ (normalize_head s)
  have h3 : dropRightWhile isSpace (normalize_text s) = normalize_text s :=
    drw_id _ (normalize_last s)
  show dropRightWhile isSpace ((collapseWS ((some (normalize_text s)).getD [])).dropWhile isSpace)
      = normalize_text s
  rw [Option.getD_some, h1, h2, h3]

theorem dedupGo_idem : ∀ (l : List Rec) (seen : List Str) (out : List Rec),
    dedupGo seen l = .ok out → dedupGo seen out = .ok out := by
  intro l
  induction l with
  | nil =>
    intro seen out h
    rw [dedupGo] at h
    have : out = [] := by
      cases h; rfl
    rw [this]
    rfl
  | cons it rest ih =>
    intro seen out h
    rw [dedupGo] at h
    cases hk : dkey it with
    | error e => rw [hk] at h; cases h
    | ok k =>
      simp only [hk] at h
      by_cases hc : k ≠ [] ∧ k ∉ seen
      · rw [if_pos hc] at h
        cases hrest : dedupGo (k :: seen) rest with
        | error e => rw [hrest] at h; cases h
        | ok o =>
          simp only [hrest] at h
          have hout : out = it :: o := by cases h; rfl
          rw [hout, dedupGo, hk]
          simp only [if_pos hc, ih (k :: seen) o hrest]
      · rw [if_neg hc] at h
        exact ih seen out h

theorem dedupGo_sublist : ∀ (l : List Rec) (seen : List Str) (out : List Rec),
    dedupGo seen l = .ok out → List.Sublist out l := by
  intro l
  induction l with
  | nil =>
    intro seen out h
    rw [dedupGo] at h
    cases h
    exact List.Sublist.refl []
  | cons it rest ih =>
    intro seen out h
    rw [dedupGo] at h
    cases hk : dkey it with
    | error e => rw [hk] at h; cases h
    | ok k =>
      simp only [hk] at h
      by_cases hc : k ≠ [] ∧ k ∉ seen
      · rw [if_pos hc] at h
        cases hrest : dedupGo (k :: seen) rest with
        | error e => rw [hrest] at h; cases h
        | ok o =>
          simp only [hrest] at h
          have hout : out = it :: o := by cases h; rfl
          rw [hout]
          exact List.Sublist.cons₂ it (ih (k :: seen) o hrest)
      · rw [if_neg hc] at h
        exact List.Sublist.cons it (ih seen out h)

theorem dedupGo_keys : ∀ (l : List Rec) (seen : List Str) (out : List Rec),
    dedupGo seen l = .ok out → ∀ r ∈ out, ∃ k, dkey r = .ok k ∧ k ≠ [] := by
  intro l
  induction l with
  | nil =>
    intro seen out h
    rw [dedupGo] at h
    cases h
    intro r hr
    simp at hr
  | cons it rest ih =>
    intro seen out h
    rw [dedupGo] at h
    cases hk : dkey it with
    | error e => rw [hk] at h; cases h
    | ok k =>
      simp only [hk] at h
      by_cases hc : k ≠ [] ∧ k ∉ seen
      · rw [if_pos hc] at h
        cases hrest : dedupGo (k :: seen) rest with
        | error e => rw [hrest] at h; cases h
        | ok o =>
          simp only [hrest] at h
          have hout : out = it :: o := by cases h; rfl
          rw [hout]
          intro r hr
          rcases List.mem_cons.mp hr with h1 | h2
          · exact ⟨k, by rw [h1]; exact hk, hc.1⟩
          · exact ih (k :: seen) o hrest r h2
      · rw [if_neg hc] at h
        exact ih seen out h

theorem procList_ok_mem {α : Type} (f : α → Except Unit (Option Rec)) (P : Rec → Prop)
    (hf : ∀ e r, f e = .ok (some r) → P r) :
    ∀ (l : List α) (out : List Rec), procList f l = .ok out → ∀ r ∈ out, P r := by
  intro l
  induction l with
  | nil =>
    intro out h
    rw [procList] at h
    cases h
    intro r hr
    simp at hr
  | cons e es ih =>
    intro out h
    rw [procList] at h
    cases hfe : f e with
    | error er => rw [hfe] at h; cases h
    | ok r? =>
      rw [hfe] at h
      cases r? with
      | none => exact ih out h
      | some r =>
        cases hrest : procList f es with
        | error er => rw [hrest] at h; cases h
        | ok rest =>
          rw [hrest] at h
          have hout : out = r :: rest := by cases h; rfl
          rw [hout]
          intro x hx
          rcases List.mem_cons.mp hx with h1 | h2
          · rw [h1]; exact hf e r hfe
          · exact ih rest hrest x h2

theorem astimezoneJST_tz (d : DT) : (astimezoneJST d).tz = some JSTmin := by
  rw [astimezoneJST]
  cases d.tz <;> rfl

theorem arxivItem_tz (mlK chemK : List Str) (H nowUTC : Int) (nowDT : DT)
    (dtparse : Str → Except Unit DT) (e : FeedEntry) (r : Rec) :
    arxivItem mlK chemK H nowUTC nowDT dtparse e = .ok (some r) →
    r.published_at.tz = some JSTmin := by
  intro h
  simp only [arxivItem] at h
  split at h
  · cases h
  · split at h
    · cases h
    · split at h
      · cases h
      · split at h
        · cases h
        · cases h; exact astimezoneJST_tz _

theorem crossrefItem_tz (mlK chemK : List Str) (H nowUTC : Int) (nowDT : DT)
    (dtparse : Str → Except Unit DT) (it : CrItem) (r : Rec) :
    crossrefItem mlK chemK H nowUTC nowDT dtparse it = .ok (some r) →
    r.published_at.tz = some JSTmin := by
  intro h
  simp only [crossrefItem] at h
  split at h
  · cases h
  · split at h
    · cases h
    · split at h
      · cases h
      · split at h
        · cases h
        · cases h; exact astimezoneJST_tz _

theorem biorxivItem_tz (mlK chemK : List Str) (H nowUTC : Int) (nowDT : DT)
    (dtparse : Str → Except Unit DT) (e : FeedEntry) (r : Rec) :
    biorxivItem mlK chemK H nowUTC nowDT dtparse e = .ok (some r) →
    r.published_at.tz = some JSTmin := by
  intro h
  simp only [biorxivItem] at h
  split at h
  · cases h
  · split at h
    · cases h
    · split at h
      · cases h
      · split at h
        · cases h
        · cases h; exact astimezoneJST_tz _

theorem s2Item_tz (mlK chemK : List Str) (H nowUTC : Int) (nowDT : DT)
    (dtparse : Str → Except Unit DT) (p : S2Item) (r : Rec) :
    s2Item mlK chemK H nowUTC nowDT dtparse p = .ok (some r) →
    r.published_at.tz = some JSTmin := by
  intro h
  simp only [s2Item] at h
  split at h
  · cases h
  · split at h
    · cases h
    · split at h
      · cases h
      · cases h; exact astimezoneJST_tz _

/-- C1 (counterexample): the claim says a record whose DOI, URL and title are
all empty derives an empty dedup key and is always kept in the output; in the
code `if key and key not in seen` drops it, so `dedup` on the single all-empty
record returns the empty list. -/
theorem C1_counterexample : dedup [rEmpty] = .ok [] := by decide

/-- C1 (amended): a record whose derived dedup key is the empty string never
appears in the output of `dedup`; every surviving record has a nonempty key. -/
theorem C1_amended_empty_key_dropped : ∀ (xs out : List Rec),
    dedup xs = .ok out → ∀ r ∈ out, dkey r ≠ .ok [] := by
  intro xs out h r hr
  rcases dedupGo_keys xs [] out h r hr with ⟨k, hk, hne⟩
  rw [hk]
  intro hcon
  exact hne (by cases hcon; rfl)

/-- Witness for C1 (amended): a surviving record with DOI `"d"` indeed has a
nonempty dedup key. -/
theorem C1_amended_witness : dkey (rDoi ['d']) ≠ .ok [] :=
  C1_amended_empty_key_dropped [rDoi ['d']] [rDoi ['d']] (by decide) (rDoi ['d']) (by decide)

/-- C2 (code bug): the claim says no adapter call ever propagates an exception,
but `fetch_arxiv` calls `dtparser.parse` on a present-but-malformed `published`
string with no exception handler, so the whole adapter call raises: on a feed
with one entry whose `published` field fails to parse, `fetch_arxiv` ends in an
uncaught exception instead of returning a sequence. -/
theorem C2_failing_eval :
    fetch_arxiv [] [] 30 0 nowDT0 failParse [badEntry] = .error () := by decide

/-- C4: `within_lookback` accepts an aware timestamp `t` exactly when
`now - t <= H` hours: in particular it accepts timestamps in the past within
the horizon, at exactly the horizon, and any future-dated timestamp. -/
theorem C4_within_lookback_iff (H nowUTC : Int) (dt : DT) (o : Int) (h : dt.tz = some o) :
    within_lookback H nowUTC dt = .ok true ↔ nowUTC - (dt.wall - o * 60) ≤ H * 3600 := by
  rw [within_lookback, DT.instant?, h]
  simp

/-- Witness for C4: a timestamp at exactly the 30-hour horizon and a
future-dated timestamp are both accepted. -/
theorem C4_witness :
    within_lookback 30 108000 nowDT0 = .ok true ∧
    within_lookback 30 0 { wall := 500, tz := some 0 } = .ok true :=
  ⟨(C4_within_lookback_iff 30 108000 nowDT0 0 rfl).mpr (by decide),
   (C4_within_lookback_iff 30 0 { wall := 500, tz := some 0 } 0 rfl).mpr (by decide)⟩

/-- C6: `normalize_text` is idempotent, and its output has no run of two or
more whitespace characters and no leading or trailing whitespace. -/
theorem C6_normalize_idempotent_no_runs (s : Str) :
    normalize_text (some (normalize_text (some s))) = normalize_text (some s) ∧
    List.Chain' noWS2 (normalize_text (some s)) ∧
    (∀ c, (normalize_text (some s)).head? = some c → isSpace c = false) ∧
    (∀ c, (normalize_text (some s)).getLast? = some c → isSpace c = false) :=
  ⟨normalizeText_idem (some s), normalize_chain (some s),
   fun c => normalize_head (some s) c, fun c => normalize_last (some s) c⟩

/-- Witness for C6: idempotence evaluated on a sample messy string. -/
theorem C6_witness :
    normalize_text (some (normalize_text (some sEx))) = normalize_text (some sEx) :=
  (C6_normalize_idempotent_no_runs sEx).1

/-- C8: when the generative service call fails, `summarize_ja` returns the
first 200 characters of the abstract (the empty string when the abstract is
empty); the `try`/`except` makes the function total, so no exception reaches
the pipeline. -/
theorem C8_summarize_fallback (svc : Str → Str → Except Unit Str) (title abstract : Str)
    (e : Unit) (h : svc title abstract = .error e) :
    summarize_ja svc title abstract = abstract.take 200 ∧
    (abstract = [] → summarize_ja svc title abstract = []) := by
  constructor
  · rw [summarize_ja, h]
  · intro ha
    rw [summarize_ja, h, ha]
    rfl

/-- Witness for C8: a failing service yields the truncated abstract, and the
empty abstract yields the empty string. -/
theorem C8_witness :
    summarize_ja failSvc ['t'] ['a', 'b', 'c'] = (['a', 'b', 'c'] : Str).take 200 ∧
    summarize_ja failSvc ['t'] [] = [] :=
  ⟨(C8_summarize_fallback failSvc ['t'] ['a', 'b', 'c'] () rfl).1,
   (C8_summarize_fallback failSvc ['t'] [] () rfl).2 rfl⟩

/-- C3: every record emitted by any of the four Source Adapters carries a
timezone-aware `published_at` normalized to the fixed display timezone (JST,
+540 minutes), on every per-provider date precedence branch including the
fallbacks. -/
theorem C3_published_at_jst :
    (∀ (mlK chemK : List Str) (H nowUTC : Int) (nowDT : DT)
        (dtparse : Str → Except Unit DT) (entries : List FeedEntry) (out : List Rec),
        fetch_arxiv mlK chemK H nowUTC nowDT dtparse entries = .ok out →
        ∀ r ∈ out, r.published_at.tz = some JSTmin) ∧
    (∀ (httpOk : Except Unit Unit) (json : Except Unit (List CrItem)) (mlK chemK : List Str)
        (H nowUTC : Int) (nowDT : DT) (dtparse : Str → Except Unit DT) (out : List Rec),
        fetch_crossref httpOk json mlK chemK H nowUTC nowDT dtparse = .ok out →
        ∀ r ∈ out, r.published_at.tz = some JSTmin) ∧
    (∀ (feed : Except Unit (List FeedEntry)) (maxResults : Nat) (mlK chemK : List Str)
        (H nowUTC : Int) (nowDT : DT) (dtparse : Str → Except Unit DT) (out : List Rec),
        fetch_biorxiv feed maxResults mlK chemK H nowUTC nowDT dtparse = .ok out →
        ∀ r ∈ out, r.published_at.tz = some JSTmin) ∧
    (∀ (apiKey : Option Str) (httpOk : Except Unit Unit) (json : Except Unit (List S2Item))
        (mlK chemK : List Str) (H nowUTC : Int) (nowDT : DT)
        (dtparse : Str → Except Unit DT) (out : List Rec),
        fetch_semanticscholar apiKey httpOk json mlK chemK H nowUTC nowDT dtparse = .ok out →
        ∀ r ∈ out, r.published_at.tz = some JSTmin) := by
  refine ⟨?_, ?_, ?_, ?_⟩
  · intro mlK chemK H nowUTC nowDT dtparse entries out h
    exact procList_ok_mem _ _
      (fun e r he => arxivItem_tz mlK chemK H nowUTC nowDT dtparse e r he) entries out h
  · intro httpOk json mlK chemK H nowUTC nowDT dtparse out h
    cases httpOk with
    | error e =>
      have hout : out = [] := by rw [fetch_crossref] at h; cases h; rfl
      rw [hout]
      intro r hr
      simp at hr
    | ok u =>
      cases json with
      | error e2 => rw [fetch_crossref] at h; cases h
      | ok items =>
        rw [fetch_crossref] at h
        exact procList_ok_mem _ _
          (fun e r he => crossrefItem_tz mlK chemK H nowUTC nowDT dtparse e r he) items out h
  · intro feed maxResults mlK chemK H nowUTC nowDT dtparse out h
    cases feed with
    | error e =>
      have hout : out = [] := by rw [fetch_biorxiv] at h; cases h; rfl
      rw [hout]
      intro r hr
      simp at hr
    | ok entries =>
      rw [fetch_biorxiv] at h
      exact procList_ok_mem _ _
        (fun e r he => biorxivItem_tz mlK chemK H nowUTC nowDT dtparse e r he)
        (entries.take maxResults) out h
  · intro apiKey httpOk json mlK chemK H nowUTC nowDT dtparse out h
    cases apiKey with
    | none =>
      have hout : out = [] := by rw [fetch_semanticscholar] at h; cases h; rfl
      rw [hout]
      intro r hr
      simp at hr
    | some key =>
      cases httpOk with
      | error e =>
        have hout : out = [] := by rw [fetch_semanticscholar] at h; cases h; rfl
        rw [hout]
        intro r hr
        simp at hr
      | ok u =>
        cases json with
        | error e2 => rw [fetch_semanticscholar] at h; cases h
        | ok items =>
          rw [fetch_semanticscholar] at h
          exact procList_ok_mem _ _
            (fun p r he => s2Item_tz mlK chemK H nowUTC nowDT dtparse p r he) items out h

/-- Witness for C3: the record emitted by `fetch_arxiv` for a dateless entry
(the `datetime.now` fallback branch) carries the JST offset. -/
theorem C3_witness : arxivOutRec.published_at.tz = some JSTmin :=
  C3_published_at_jst.1 [['m', 'l']] [['c']] 30 0 nowDT0 failParse [okEntry] [arxivOutRec]
    (by decide) arxivOutRec (by decide)

/-- C5: the relevance filter accepts exactly when some term of each vocabulary
occurs as a case-insensitive substring of the text; changing letter case in the
text never changes the result; an empty vocabulary makes it reject every
text. -/
theorem C5_has_keywords_conjunction (cfgA cfgB : List Str) (t : Str) :
    (has_keywords (loadKeywords cfgA) (loadKeywords cfgB) (some t) = true ↔
      ((∃ k ∈ cfgA, lowerStr k <:+: lowerStr t) ∧ (∃ k ∈ cfgB, lowerStr k <:+: lowerStr t))) ∧
    (∀ t2 : Str, lowerStr t = lowerStr t2 →
      has_keywords (loadKeywords cfgA) (loadKeywords cfgB) (some t) =
        has_keywords (loadKeywords cfgA) (loadKeywords cfgB) (some t2)) ∧
    (cfgA = [] → has_keywords (loadKeywords cfgA) (loadKeywords cfgB) (some t) = false) ∧
    (cfgB = [] → has_keywords (loadKeywords cfgA) (loadKeywords cfgB) (some t) = false) := by
  refine ⟨?_, ?_, ?_, ?_⟩
  · simp [has_keywords, loadKeywords, pyIn, List.any_eq_true, List.mem_map]
  · intro t2 h12
    simp only [has_keywords, Option.getD_some]
    rw [h12]
  · intro hA
    subst hA
    simp [has_keywords, loadKeywords]
  · intro hB
    subst hB
    simp [has_keywords, loadKeywords]

/-- Witness for C5: flipping letter case in the text does not change the
verdict, and an empty ML vocabulary rejects a chemistry-matching text. -/
theorem C5_witness :
    has_keywords (loadKeywords [['M', 'L']]) (loadKeywords [['c']]) (some ['m', 'L', ' ', 'C']) =
      has_keywords (loadKeywords [['M', 'L']]) (loadKeywords [['c']]) (some ['M', 'l', ' ', 'c']) ∧
    has_keywords (loadKeywords []) (loadKeywords [['c']]) (some ['c']) = false :=
  ⟨(C5_has_keywords_conjunction [['M', 'L']] [['c']] ['m', 'L', ' ', 'C']).2.1
      ['M', 'l', ' ', 'c'] (by decide),
   (C5_has_keywords_conjunction [] [['c']] ['c']).2.2.1 rfl⟩

/-- C7: `dedup` is an order-preserving pass (its successful output is a
sublist of its input) and idempotent on its own output, and of two records
whose DOIs are equal up to letter case only the first survives. -/
theorem C7_dedup_idempotent_order :
    (∀ (xs ys : List Rec), dedup xs = .ok ys →
      dedup ys = .ok ys ∧ List.Sublist ys xs) ∧
    (∀ (r1 r2 : Rec) (d1 d2 : Str), r1.doi = some d1 → r2.doi = some d2 →
      lowerStr d1 = lowerStr d2 → d1 ≠ [] → dedup [r1, r2] = .ok [r1]) := by
  constructor
  · intro xs ys h
    exact ⟨dedupGo_idem xs [] ys h, dedupGo_sublist xs [] ys h⟩
  · intro r1 r2 d1 d2 h1 h2 h12 hne
    have hlne : lowerStr d1 ≠ [] := by
      intro hcon
      exact hne (List.map_eq_nil.mp hcon)
    have hk1 : dkey r1 = .ok (lowerStr d1) := by
      rw [dkey, h1]
      simp only [Option.getD_some]
      rw [if_pos hlne]
    have hk2 : dkey r2 = .ok (lowerStr d1) := by
      rw [dkey, h2]
      simp only [Option.getD_some]
      rw [h12] at hlne ⊢
      rw [if_pos hlne]
    rw [dedup, dedupGo]
    simp only [hk1]
    rw [if_pos ⟨hlne, by simp⟩]
    rw [dedupGo]
    simp only [hk2]
    rw [if_neg (by simp)]
    rw [dedupGo]

/-- Witness for C7: idempotence on a one-record list, and the first of two
records with case-variant DOIs `"Ab"`/`"aB"` wins. -/
theorem C7_witness :
    dedup [rDoi ['d']] = .ok [rDoi ['d']] ∧
    dedup [rDoi ['A', 'b'], rDoi ['a', 'B']] = .ok [rDoi ['A', 'b']] :=
  ⟨(C7_dedup_idempotent_order.1 [rDoi ['d']] [rDoi ['d']] (by decide)).1,
   C7_dedup_idempotent_order.2 (rDoi ['A', 'b']) (rDoi ['a', 'B']) ['A', 'b'] ['a', 'B']
     rfl rfl (by decide) (by decide)⟩

/-- C9: when the merged fetch results are nonempty but the deduplicated count
is below the configured minimum, `main` ends in the silent skip (no handoff to
`build_email_html`/`send_email`), even though `summarize_ja` has already been
applied to every surviving record. -/
theorem C9_below_min_no_handoff (fetched : List Rec) (svc : Str → Str → Except Unit Str)
    (minI : Int) (items : List Rec)
    (hne : fetched ≠ []) (hd : dedup fetched = .ok items)
    (hpos : 0 < items.length) (hlt : (items.length : Int) < minI) :
    mainAfterFetch fetched svc minI =
      .ok (RunOutcome.belowMin
        (items.map (fun it => RecS.mk it (summarize_ja svc it.title it.abstract)))) ∧
    (∀ l, mainAfterFetch fetched svc minI ≠ .ok (RunOutcome.sent l)) := by
  have hmain : mainAfterFetch fetched svc minI =
      .ok (RunOutcome.belowMin
        (items.map (fun it => RecS.mk it (summarize_ja svc it.title it.abstract)))) := by
    rw [mainAfterFetch, if_neg hne]
    simp only [hd, List.length_map]
    rw [if_pos hlt]
  refine ⟨hmain, ?_⟩
  intro l hcon
  rw [hmain] at hcon
  cases hcon

/-- Witness for C9: one surviving record against a configured minimum of 2
reaches the skip outcome carrying the already-summarized record. -/
theorem C9_witness :
    mainAfterFetch [rDoi ['d']] failSvc 2 =
      .ok (RunOutcome.belowMin
        ([rDoi ['d']].map (fun it => RecS.mk it (summarize_ja failSvc it.title it.abstract)))) :=
  (C9_below_min_no_handoff [rDoi ['d']] failSvc 2 [rDoi ['d']]
    (by decide) (by decide) (by decide) (by decide)).1

/-- C10: the text utilities are total on missing values: `normalize_text(None)`
is the empty string, and `has_keywords(None)` evaluates (to a `Bool`, so it
cannot raise) and rejects whenever both vocabularies are nonempty and consist
of nonempty terms. -/
theorem C10_total_on_none (mlK chemK : List Str)
    (hA : mlK ≠ []) (hB : chemK ≠ [])
    (hAne : ∀ k ∈ mlK, k ≠ []) (hBne : ∀ k ∈ chemK, k ≠ []) :
    normalize_text none = [] ∧ has_keywords mlK chemK none = false := by
  constructor
  · rfl
  · have hA0 : (mlK.any fun k => pyIn k (lowerStr ((none : Option Str).getD []))) = false := by
      rw [List.any_eq_false]
      intro k hk
      simp only [Option.getD_none, pyIn]
      show ¬ decide (k <:+: ([] : Str)) = true
      simp only [decide_eq_true_eq, List.infix_nil]
      exact fun hcon => hAne k hk hcon
    rw [has_keywords]
    simp only [hA0, Bool.false_and]

/-- Witness for C10: concrete nonempty vocabularies with nonempty terms. -/
theorem C10_witness : normalize_text none = [] ∧ has_keywords [['a']] [['b']] none = false :=
  C10_total_on_none [['a']] [['b']] (by decide) (by decide) (by decide) (by decide)
